import Mathlib

/-!
# Verification of the distributed simplex-mesh component

A shallow embedding of `src/mesh/GlobalSimplexMesh.h` (namespace `tndm`).
Ranks are indexed `0 .. P-1`; per-rank data is a list indexed by rank.  The
MPI collectives (`AllToAllV::exchange`, `MPI_Scan`, the rendezvous round
trips) are modelled as pure functions of all ranks' contributions, with the
whole SPMD step expressed as one function from the per-rank inputs to the
per-rank outputs.  Machine integers are modelled as `ℕ` (all quantities
involved are sizes, ids and counts that the program keeps far below 2^64,
and no arithmetic in the embedded code wraps).
-/

namespace Tndm

/-! ## List helpers -/

/-- List coerced to a multiset (global multisets of elements are unions of
per-rank lists). -/
def msOf {α : Type _} (l : List α) : Multiset α := (l : Multiset α)

theorem msOf_perm {α : Type _} {a b : List α} (h : List.Perm a b) : msOf a = msOf b :=
  Quot.sound h

theorem msOf_append {α : Type _} (a b : List α) : msOf (a ++ b) = msOf a + msOf b :=
  (Multiset.coe_add a b).symm

theorem msOf_flatten {α : Type _} (l : List (List α)) :
    msOf l.flatten = (l.map msOf).sum := by
  induction l with
  | nil => rfl
  | cons a t ih => rw [List.flatten_cons, List.map_cons, List.sum_cons, ← ih, msOf_append]

theorem getD_map_range {α : Type _} (f : ℕ → α) (d : α) {r n : ℕ} (h : r < n) :
    ((List.range n).map f).getD r d = f r := by
  rw [List.getD_eq_getElem _ _ (by simpa using h)]
  simp

theorem map_getD_range {α : Type _} (l : List α) (d : α) :
    (List.range l.length).map (fun i => l.getD i d) = l := by
  apply List.ext_getElem
  · simp
  · intro i h1 h2
    simp only [List.getElem_map, List.getElem_range]
    exact List.getD_eq_getElem l d h2

theorem getD_map {α β : Type _} (f : α → β) (l : List α) (d : α) {i : ℕ}
    (h : i < l.length) : (l.map f).getD i (f d) = f (l.getD i d) := by
  rw [List.getD_eq_getElem _ _ (by simpa using h), List.getD_eq_getElem _ _ h]
  simp

/-- Sum-exchange helper: two nested list sums over the same index ranges
commute (used for the multiset bookkeeping of the all-to-all exchange). -/
theorem listSum_map_add {M : Type _} [AddCommMonoid M] (l : List ℕ) (f g : ℕ → M) :
    (l.map fun x => f x + g x).sum = (l.map f).sum + (l.map g).sum := by
  induction l with
  | nil => simp
  | cons a t ih => simp only [List.map_cons, List.sum_cons, ih]; abel

theorem listSum_comm {M : Type _} [AddCommMonoid M] (l1 l2 : List ℕ) (f : ℕ → ℕ → M) :
    (l1.map fun r => (l2.map fun p => f p r).sum).sum
      = (l2.map fun p => (l1.map fun r => f p r).sum).sum := by
  induction l1 with
  | nil => simp
  | cons a t ih =>
      simp only [List.map_cons, List.sum_cons, ih, listSum_map_add]

/-! ## Simplex values (Simplex.h collaborators)

`Simplex<d>` stores `d+1` vertex ids canonicalized to sorted order at
construction; equality is tuple equality and `operator<` (used by `std::sort`
and `std::map`) is the lexicographic order of `std::array`.  We represent a
simplex as its canonical id tuple. -/

/-- A simplex: the canonically sorted tuple of vertex ids. -/
abbrev Splx : Type := List ℕ

/-- Simplex equality is id-tuple equality; fix the `BEq` instance to the
one derived from decidable equality so the `indexOf` lemmas apply
uniformly. -/
instance : BEq Splx := instBEqOfDecidableEq

instance : LawfulBEq Splx := inferInstance

/-- Modelled from the spec: `SimplexHash` (`Simplex.h` is not among the
sources) is an order-independent commutative mix of the vertex ids, e.g. a
sum of hashed ids; modelled as the sum of the ids.  Every theorem that
depends only on the hash being a function of the simplex takes the hash as a
parameter `H`; `hashSum` instantiates the witnesses. -/
def hashSum (s : Splx) : ℕ := s.sum

/-- `downward<D-1>` of a `Simplex<D>`: the faces obtained by dropping one of
the `D+1` vertices (the enumeration order is immaterial to every use below,
since the faces feed multimaps and sets). -/
def downFaces (e : Splx) : List Splx :=
  (List.range e.length).map fun i => e.eraseIdx i

/-- `std::array::operator<`: lexicographic comparison of the id tuples. -/
def lexLe : List ℕ → List ℕ → Bool
  | [], _ => true
  | _ :: _, [] => false
  | a :: as, b :: bs => if a < b then true else if b < a then false else lexLe as bs

/-- Ordered insert used by the insertion sort `sortLe`. -/
def insLe {α : Type _} (le : α → α → Bool) (x : α) : List α → List α
  | [] => [x]
  | y :: ys => if le x y then x :: y :: ys else y :: insLe le x ys

/-- Comparison sort (the embedding's stand-in for `std::sort` where only the
result's multiset matters). -/
def sortLe {α : Type _} (le : α → α → Bool) (l : List α) : List α :=
  l.foldr (insLe le) []

theorem insLe_perm {α : Type _} (le : α → α → Bool) (x : α) (l : List α) :
    List.Perm (insLe le x l) (x :: l) := by
  induction l with
  | nil => exact List.Perm.refl _
  | cons y ys ih =>
      simp only [insLe]
      by_cases h : le x y
      · simp [h]
      · simp only [h, if_neg]
        exact (List.Perm.cons y ih).trans (List.Perm.swap x y ys)

theorem sortLe_perm {α : Type _} (le : α → α → Bool) (l : List α) :
    List.Perm (sortLe le l) l := by
  induction l with
  | nil => exact List.Perm.refl _
  | cons a t ih => exact (insLe_perm le a (sortLe le t)).trans (List.Perm.cons a ih)

/-- `std::unique` on the tail, remembering the last kept element. -/
def dedupAdjFrom {α : Type _} [DecidableEq α] (x : α) : List α → List α
  | [] => []
  | y :: ys => if y = x then dedupAdjFrom x ys else y :: dedupAdjFrom y ys

/-- `std::unique`: collapse runs of equal adjacent elements. -/
def dedupAdj {α : Type _} [DecidableEq α] : List α → List α
  | [] => []
  | x :: xs => x :: dedupAdjFrom x xs

/-- `std::sort` followed by `std::unique` on a batch of received ghost
elements. -/
def sortUnique (l : List Splx) : List Splx := dedupAdj (sortLe lexLe l)

/-! ## `doPartition` (GlobalSimplexMesh.h lines 157-190)

`doPartition` sorts an index enumeration by target rank with `std::sort`,
splits it into one block per destination rank with the
`while (partition[*eIt] <= p)` loop, ships the blocks with `AllToAllV`, and
replaces the local element array with the received buffer.  `std::sort` only
guarantees that its result is *some* permutation sorted by the comparator
(it is not stable), so the enumeration appears as a parameter `enum`
constrained by `validEnum` in the theorems. -/

/-- The send-bucket loop of `doPartition`: for `p = 0, 1, ...` consume from
the sorted enumeration the indices whose partition value is `≤ p`, yielding
one index block per destination rank; `fuel` counts the destination ranks
still to serve. -/
def bucketsAux (part : List ℕ) : List ℕ → ℕ → ℕ → List (List ℕ)
  | _, _, 0 => []
  | e, p, fuel + 1 =>
      e.takeWhile (fun i => part.getD i 0 ≤ p) ::
        bucketsAux part (e.dropWhile (fun i => part.getD i 0 ≤ p)) (p + 1) fuel

/-- The per-destination index blocks of `doPartition` on one rank. -/
def buckets (part enum : List ℕ) (procs : ℕ) : List (List ℕ) :=
  bucketsAux part enum 0 procs

/-- The postcondition of `std::sort(enumeration, cmp)` with
`cmp a b = partition[a] < partition[b]`: the result is a permutation of
`0 .. n-1` whose image under the partition vector is non-decreasing.
`std::sort` guarantees nothing more; in particular it is not stable. -/
def validEnum (part enum : List ℕ) : Prop :=
  List.Perm enum (List.range part.length) ∧
    (enum.map fun i => part.getD i 0).Sorted (· ≤ ·)

/-- The claim's stability property: indices with equal target rank keep
their relative order in the enumeration (the send slot of a local index is
its position in the enumeration). -/
def stableOrder (part enum : List ℕ) : Prop :=
  ∀ a, a < part.length → ∀ b, b < part.length → a < b →
    part.getD a 0 = part.getD b 0 → enum.indexOf a < enum.indexOf b

instance (part enum : List ℕ) : Decidable (validEnum part enum) := by
  unfold validEnum; infer_instance

instance (part enum : List ℕ) : Decidable (stableOrder part enum) := by
  unfold stableOrder; infer_instance

theorem bucketsAux_length (part : List ℕ) (e : List ℕ) (p fuel : ℕ) :
    (bucketsAux part e p fuel).length = fuel := by
  induction fuel generalizing e p with
  | zero => rfl
  | succ n ih => simp [bucketsAux, ih]

theorem bucketsAux_block_sublist (part : List ℕ) (e : List ℕ) (p fuel : ℕ) :
    ∀ blk ∈ bucketsAux part e p fuel, List.Sublist blk e := by
  induction fuel generalizing e p with
  | zero => intro blk h; cases h
  | succ n ih =>
      intro blk h
      rcases List.mem_cons.mp h with h | h
      · exact h ▸ List.takeWhile_sublist _
      · exact (ih _ _ blk h).trans (List.dropWhile_sublist _)

theorem bucketsAux_flatten (part : List ℕ) (fuel : ℕ) :
    ∀ (e : List ℕ) (p : ℕ), (∀ i ∈ e, part.getD i 0 ≤ p + fuel) →
      (bucketsAux part e p (fuel + 1)).flatten = e := by
  induction fuel with
  | zero =>
      intro e p h
      have : e.takeWhile (fun i => part.getD i 0 ≤ p) = e := by
        induction e with
        | nil => rfl
        | cons a t iht =>
            simp only [List.takeWhile_cons]
            have ha := h a (List.mem_cons_self a t)
            simp only [Nat.add_zero] at ha
            simp only [decide_eq_true_eq, ha, if_pos]
            rw [iht (fun i hi => h i (List.mem_cons_of_mem a hi))]
      rw [show bucketsAux part e p (0 + 1)
            = [e.takeWhile (fun i => part.getD i 0 ≤ p)] from rfl,
        List.flatten_cons, List.flatten_nil, List.append_nil, this]
  | succ n ih =>
      intro e p h
      show (e.takeWhile _ ::
        bucketsAux part (e.dropWhile (fun i => part.getD i 0 ≤ p)) (p + 1) (n + 1)).flatten = e
      rw [List.flatten_cons,
        ih (e.dropWhile (fun i => part.getD i 0 ≤ p)) (p + 1) (fun i hi => by
          have := h i ((List.dropWhile_sublist _).mem hi)
          omega),
        List.takeWhile_append_dropWhile]

/-- In a list whose partition image is sorted, every element surviving
`dropWhile (part · ≤ p)` has partition value `> p`. -/
theorem dropWhile_part_lb (part : List ℕ) (p : ℕ) :
    ∀ (e : List ℕ), ((e.map fun i => part.getD i 0).Sorted (· ≤ ·)) →
      ∀ i ∈ e.dropWhile (fun i => part.getD i 0 ≤ p), p < part.getD i 0 := by
  intro e
  induction e with
  | nil => intro _ i hi; cases hi
  | cons a t ih =>
      intro hs i hi
      simp only [List.map_cons, List.sorted_cons] at hs
      rw [List.dropWhile_cons] at hi
      by_cases hap : part.getD a 0 ≤ p
      · simp only [decide_eq_true_eq, hap, if_pos] at hi
        exact ih hs.2 i hi
      · simp only [decide_eq_true_eq, hap, if_neg, not_false_iff] at hi
        rcases List.mem_cons.mp hi with h | h
        · subst h; omega
        · have := hs.1 _ (List.mem_map_of_mem (fun i => part.getD i 0) h)
          simp only at this
          omega

/-- Block `b` of the bucket loop holds exactly the indices with partition
value `p + b`, provided the enumeration is sorted by partition value. -/
theorem bucketsAux_mem (part : List ℕ) (fuel : ℕ) :
    ∀ (e : List ℕ) (p : ℕ), ((e.map fun i => part.getD i 0).Sorted (· ≤ ·)) →
      (∀ i ∈ e, p ≤ part.getD i 0) →
      ∀ b, b < fuel → ∀ i ∈ (bucketsAux part e p fuel).getD b [], part.getD i 0 = p + b := by
  induction fuel with
  | zero => intro _ _ _ _ b hb; omega
  | succ n ih =>
      intro e p hs hlb b hb i hi
      match b with
      | 0 =>
          simp only [bucketsAux, List.getD_cons_zero] at hi
          have h1 := List.mem_takeWhile_imp hi
          simp only [decide_eq_true_eq] at h1
          have h2 := hlb i ((List.takeWhile_sublist _).mem hi)
          omega
      | b + 1 =>
          simp only [bucketsAux, List.getD_cons_succ] at hi
          have hres := ih (e.dropWhile (fun i => part.getD i 0 ≤ p)) (p + 1)
            (hs.sublist ((List.dropWhile_sublist _).map _))
            (fun j hj => dropWhile_part_lb part p e hs j hj)
            b (by omega) i hi
          omega

/-- Modelled from the spec: `AllToAllV::exchange` — the receive buffer of
rank `r` is the concatenation, in source-rank order, of the blocks every
rank sends to `r` (`parallel/CommPattern.h` is not among the sources). -/
def a2aRecv {α : Type _} (P : ℕ) (blocksAll : List (List (List α))) : List (List α) :=
  (List.range P).map fun r => (blocksAll.map fun bs => bs.getD r []).flatten

/-- The per-destination element blocks a rank sends in `doPartition`: the
index buckets mapped through the local array (the source's `elemsToSend`
split at `sendcounts`). -/
def sendBlocks {α : Type _} (d : α) (P : ℕ) (buf : List α) (part enum : List ℕ) :
    List (List α) :=
  (buckets part enum P).map fun b => b.map fun i => buf.getD i d

/-- `doPartition`, for the element array and —via the same permutation and
exchange— for any per-element data array (`d` is the `getD` default,
never selected when the enumeration is valid). -/
def doPartitionG {α : Type _} (d : α) (P : ℕ) (bufAll : List (List α))
    (partAll enumAll : List (List ℕ)) : List (List α) :=
  a2aRecv P ((List.range P).map fun p =>
    sendBlocks d P (bufAll.getD p []) (partAll.getD p []) (enumAll.getD p []))

/-- Modelled from the spec: `MeshData::redistributed(enumeration, a2a)`
gathers the data rows in the permuted order and ships them through the same
exchange pattern as the elements (`MeshData.h` is not among the sources). -/
def redistributedData {β : Type _} (db : β) (P : ℕ) (dataAll : List (List β))
    (partAll enumAll : List (List ℕ)) : List (List β) :=
  doPartitionG db P dataAll partAll enumAll

/-- The distributed mesh state relevant to repartitioning: the per-rank
element arrays and the `isPartitionedByHash` flag. -/
structure PMesh where
  elems : List (List Splx)
  byHash : Bool
  deriving DecidableEq

/-- `part[i] = SimplexHash<D>()(elems[i]) % procs` (getPlex2Rank for `DD > 0`,
lines 384-397). -/
def hashPart (H : Splx → ℕ) (P : ℕ) (es : List Splx) : List ℕ :=
  es.map fun e => H e % P

/-- `repartitionByHash` (lines 117-130): a no-op when the flag is set,
otherwise `doPartition` on the hash partition vector, then the flag is set. -/
def repartitionByHash (H : Splx → ℕ) (P : ℕ) (enumAll : List (List ℕ)) (st : PMesh) :
    PMesh :=
  if st.byHash then st
  else
    { elems := doPartitionG [] P st.elems
        ((List.range P).map fun r => hashPart H P (st.elems.getD r [])) enumAll,
      byHash := true }

/-- `repartition` (lines 104-110): `doPartition` on an externally produced
partition vector (ParMETIS is an external collaborator), then the flag is
cleared. -/
def repartition (P : ℕ) (partAll enumAll : List (List ℕ)) (st : PMesh) : PMesh :=
  { elems := doPartitionG [] P st.elems partAll enumAll, byHash := false }

/-! ## Lemmas about `doPartition` -/

theorem flatten_sendBlocks {α : Type _} (d : α) (P : ℕ) (buf : List α)
    (part enum : List ℕ) (hP : 0 < P) (hpv : ∀ i ∈ enum, part.getD i 0 < P) :
    (sendBlocks d P buf part enum).flatten = enum.map fun i => buf.getD i d := by
  rw [sendBlocks, ← List.map_flatten]
  congr 1
  obtain ⟨Q, rfl⟩ : ∃ Q, P = Q + 1 := ⟨P - 1, by omega⟩
  exact bucketsAux_flatten part Q enum 0 (fun i hi => by have := hpv i hi; omega)

theorem sendBlocks_length {α : Type _} (d : α) (P : ℕ) (buf : List α)
    (part enum : List ℕ) : (sendBlocks d P buf part enum).length = P := by
  rw [sendBlocks, List.length_map]
  exact bucketsAux_length _ _ _ _

theorem sendBlocks_getD_length {α β : Type _} (d : α) (d' : β) (P : ℕ)
    (buf : List α) (buf' : List β) (part enum : List ℕ) (r : ℕ) (hr : r < P) :
    ((sendBlocks d P buf part enum).getD r []).length
      = ((sendBlocks d' P buf' part enum).getD r []).length := by
  have h1 : r < (buckets part enum P).length := by
    rw [buckets, bucketsAux_length]; exact hr
  rw [sendBlocks, sendBlocks,
    List.getD_eq_getElem _ _ (by simpa using h1),
    List.getD_eq_getElem _ _ (by simpa using h1)]
  simp

theorem msOf_sum_over_ranks {α : Type _} (P : ℕ) (xs : List (List α)) :
    msOf ((List.range P).map fun r => xs.getD r []).flatten
      = ((List.range P).map fun r => msOf (xs.getD r [])).sum := by
  rw [msOf_flatten, List.map_map]; rfl

/-- The global multiset carried by `doPartition`'s exchange is the global
multiset of the input buffers: every bucket index block is consumed exactly
once and lands at exactly one destination. -/
theorem doPartitionG_global {α : Type _} (d : α) (P : ℕ) (bufAll : List (List α))
    (partAll enumAll : List (List ℕ)) (hP : 0 < P)
    (hlen : ∀ p, p < P → (partAll.getD p []).length = (bufAll.getD p []).length)
    (hperm : ∀ p, p < P →
      List.Perm (enumAll.getD p []) (List.range (partAll.getD p []).length))
    (hpv : ∀ p, p < P → ∀ i ∈ enumAll.getD p [],
      (partAll.getD p []).getD i 0 < P) :
    msOf ((List.range P).map fun r =>
        (doPartitionG d P bufAll partAll enumAll).getD r []).flatten
      = msOf ((List.range P).map fun p => bufAll.getD p []).flatten := by
  rw [msOf_sum_over_ranks, msOf_sum_over_ranks]
  have hrecv : ∀ r ∈ List.range P,
      msOf ((doPartitionG d P bufAll partAll enumAll).getD r [])
        = ((List.range P).map fun p => msOf
            ((sendBlocks d P (bufAll.getD p []) (partAll.getD p [])
              (enumAll.getD p [])).getD r [])).sum := by
    intro r hr
    rw [doPartitionG, a2aRecv, getD_map_range _ _ (List.mem_range.mp hr),
      msOf_flatten, List.map_map, List.map_map]
    rfl
  rw [List.map_congr_left hrecv, listSum_comm]
  apply congrArg
  apply List.map_congr_left
  intro p hp
  have hplt := List.mem_range.mp hp
  set buf := bufAll.getD p [] with hbuf
  set part := partAll.getD p [] with hpart
  set enum := enumAll.getD p [] with henum
  set blocks := sendBlocks d P buf part enum with hblocks
  have hlenb : blocks.length = P := sendBlocks_length _ _ _ _ _
  have h1 : (List.range P).map (fun r => blocks.getD r []) = blocks := by
    rw [← hlenb]; exact map_getD_range blocks []
  have h2 : (List.range P).map (fun r => msOf (blocks.getD r [])) = blocks.map msOf := by
    conv_rhs => rw [← h1]
    rw [List.map_map]
    rfl
  rw [h2, ← msOf_flatten, hblocks,
    flatten_sendBlocks d P buf part enum hP (hpv p hplt)]
  apply msOf_perm
  have hmap := (hperm p hplt).map fun i => buf.getD i d
  have h3 : (List.range part.length).map (fun i => buf.getD i d) = buf := by
    rw [hlen p hplt]; exact map_getD_range buf d
  rw [h3] at hmap
  exact hmap

theorem map_zip_getD {α β : Type _} (d1 : α) (d2 : β) (b1 : List α) (b2 : List β)
    (hl : b2.length = b1.length) (blk : List ℕ) (hblk : ∀ i ∈ blk, i < b1.length) :
    blk.map (fun i => (b1.zip b2).getD i (d1, d2))
      = (blk.map fun i => b1.getD i d1).zip (blk.map fun i => b2.getD i d2) := by
  rw [List.zip_map']
  apply List.map_congr_left
  intro i hi
  have h1 := hblk i hi
  have h2 : i < b2.length := by omega
  rw [List.getD_eq_getElem _ _ h1, List.getD_eq_getElem _ _ h2,
    List.getD_eq_getElem _ _ (by rw [List.length_zip]; omega)]
  exact List.getElem_zip

theorem map_zipWith_zip {α β γ : Type _} (f : γ → List α) (g : γ → List β)
    (l : List γ) :
    List.zipWith List.zip (l.map f) (l.map g) = l.map fun x => (f x).zip (g x) := by
  induction l with
  | nil => rfl
  | cons a t ih => simp [ih]

theorem sendBlocks_zip {α β : Type _} (d1 : α) (d2 : β) (P : ℕ)
    (b1 : List α) (b2 : List β) (part enum : List ℕ)
    (hl : b2.length = b1.length) (hb : ∀ i ∈ enum, i < b1.length) :
    sendBlocks (d1, d2) P (b1.zip b2) part enum
      = List.zipWith List.zip (sendBlocks d1 P b1 part enum)
          (sendBlocks d2 P b2 part enum) := by
  unfold sendBlocks
  rw [map_zipWith_zip]
  apply List.map_congr_left
  intro blk hblk
  exact map_zip_getD d1 d2 b1 b2 hl blk
    (fun i hi => hb i ((bucketsAux_block_sublist _ _ _ _ blk hblk).mem hi))

theorem flatten_zip {α β : Type _} (LA : List (List α)) (LB : List (List β))
    (hlen : LA.length = LB.length)
    (hcomp : ∀ k, k < LA.length → (LA.getD k []).length = (LB.getD k []).length) :
    (List.zipWith List.zip LA LB).flatten = LA.flatten.zip LB.flatten := by
  induction LA generalizing LB with
  | nil => cases LB with
      | nil => rfl
      | cons b tb => simp at hlen
  | cons a ta ih =>
      cases LB with
      | nil => simp at hlen
      | cons b tb =>
          simp only [List.zipWith_cons_cons, List.flatten_cons]
          rw [ih tb (by simpa using hlen)
            (fun k hk => hcomp (k + 1) (by simpa using Nat.succ_lt_succ hk))]
          exact (List.zip_append (hcomp 0 (by simp))).symm

theorem zipWith_zip_getD {α β : Type _} (A : List (List α)) (B : List (List β))
    (r : ℕ) (hA : r < A.length) (hB : r < B.length) :
    (List.zipWith List.zip A B).getD r [] = (A.getD r []).zip (B.getD r []) := by
  rw [List.getD_eq_getElem _ _ (by rw [List.length_zipWith]; omega),
    List.getD_eq_getElem _ _ hA, List.getD_eq_getElem _ _ hB]
  exact List.getElem_zipWith

theorem doPartitionG_getD {α : Type _} (d : α) (P : ℕ) (bufAll : List (List α))
    (partAll enumAll : List (List ℕ)) (r : ℕ) (hr : r < P) :
    (doPartitionG d P bufAll partAll enumAll).getD r []
      = ((List.range P).map fun p =>
          (sendBlocks d P (bufAll.getD p []) (partAll.getD p [])
            (enumAll.getD p [])).getD r []).flatten := by
  rw [doPartitionG, a2aRecv, getD_map_range _ _ hr, List.map_map]
  rfl

/-- Exchanging per-element data with the same enumeration and the same
exchange pattern keeps it in lock-step with the elements: the received
buffers of the paired run are the pairs of the received buffers. -/
theorem doPartitionG_zip {α β : Type _} (d1 : α) (d2 : β) (P : ℕ)
    (bufA : List (List α)) (bufB : List (List β)) (partAll enumAll : List (List ℕ))
    (hlen : ∀ p, p < P → (bufB.getD p []).length = (bufA.getD p []).length)
    (hb : ∀ p, p < P → ∀ i ∈ enumAll.getD p [], i < (bufA.getD p []).length)
    (r : ℕ) (hr : r < P) :
    (doPartitionG (d1, d2) P
        ((List.range P).map fun p => (bufA.getD p []).zip (bufB.getD p []))
        partAll enumAll).getD r []
      = ((doPartitionG d1 P bufA partAll enumAll).getD r []).zip
          ((doPartitionG d2 P bufB partAll enumAll).getD r []) := by
  rw [doPartitionG_getD _ _ _ _ _ _ hr, doPartitionG_getD _ _ _ _ _ _ hr,
    doPartitionG_getD _ _ _ _ _ _ hr]
  have hone : ∀ p ∈ List.range P,
      (sendBlocks (d1, d2) P
          (((List.range P).map fun q => (bufA.getD q []).zip (bufB.getD q [])).getD p [])
          (partAll.getD p []) (enumAll.getD p [])).getD r []
        = ((sendBlocks d1 P (bufA.getD p []) (partAll.getD p [])
              (enumAll.getD p [])).getD r []).zip
            ((sendBlocks d2 P (bufB.getD p []) (partAll.getD p [])
              (enumAll.getD p [])).getD r []) := by
    intro p hp
    have hplt := List.mem_range.mp hp
    rw [getD_map_range _ _ hplt,
      sendBlocks_zip d1 d2 P _ _ _ _ (hlen p hplt) (hb p hplt),
      zipWith_zip_getD _ _ r (by rw [sendBlocks_length]; exact hr)
        (by rw [sendBlocks_length]; exact hr)]
  rw [List.map_congr_left hone,
    ← map_zipWith_zip
      (fun p => (sendBlocks d1 P (bufA.getD p []) (partAll.getD p [])
        (enumAll.getD p [])).getD r [])
      (fun p => (sendBlocks d2 P (bufB.getD p []) (partAll.getD p [])
        (enumAll.getD p [])).getD r [])
      (List.range P)]
  apply flatten_zip
  · simp
  · intro k hk
    simp only [List.length_map, List.length_range] at hk
    rw [getD_map_range _ _ hk, getD_map_range _ _ hk]
    exact sendBlocks_getD_length d1 d2 P _ _ _ _ r hr

/-! ## Claims C3, C4, C5, C6 -/

/-- C3: after `repartitionByHash()` returns, every element `e` in the local
element array of every rank `r` satisfies `SimplexHash<D>(e) % procs = r`.
The hash is an arbitrary function `H`; `std::sort`'s result is any
enumeration satisfying its guarantee `validEnum`; the flag hypothesis states
that the call actually repartitions (a flagged mesh was already
hash-partitioned by a previous call). -/
theorem c3_repartitionByHash_hash_owner (H : Splx → ℕ) (P : ℕ)
    (enumAll : List (List ℕ)) (st : PMesh) (hflag : st.byHash = false)
    (hval : ∀ p, p < P →
      validEnum (hashPart H P (st.elems.getD p [])) (enumAll.getD p []))
    (r : ℕ) (hr : r < P) (e : Splx)
    (he : e ∈ (repartitionByHash H P enumAll st).elems.getD r []) :
    H e % P = r := by
  rw [repartitionByHash, hflag] at he
  simp only [Bool.false_eq_true, if_false] at he
  rw [doPartitionG_getD _ _ _ _ _ _ hr] at he
  rcases List.mem_flatten.mp he with ⟨l, hl, hel⟩
  rcases List.mem_map.mp hl with ⟨p, hp, rfl⟩
  have hplt := List.mem_range.mp hp
  rw [getD_map_range _ _ hplt] at hel
  set buf := st.elems.getD p [] with hbuf
  set pt := hashPart H P buf with hpt
  set en := enumAll.getD p [] with hen
  have hlenb : (buckets pt en P).length = P := bucketsAux_length _ _ _ _
  have hrb : r < (List.map (fun b => b.map fun i => buf.getD i []) (buckets pt en P)).length := by
    rw [List.length_map, hlenb]; exact hr
  rw [sendBlocks, List.getD_eq_getElem _ _ hrb, List.getElem_map] at hel
  rcases List.mem_map.mp hel with ⟨i, hib, rfl⟩
  have hv := hval p hplt
  have hib2 : i ∈ (bucketsAux pt en 0 P).getD r [] := by
    rw [List.getD_eq_getElem _ _ (by rw [bucketsAux_length]; exact hr)]
    exact hib
  have hmem := bucketsAux_mem pt P en 0 hv.2 (fun _ _ => Nat.zero_le _) r hr i hib2
  have hienum : i ∈ en := by
    have hsub := bucketsAux_block_sublist pt en 0 P _
      (List.getElem_mem (l := buckets pt en P) (by rw [hlenb]; exact hr))
    exact hsub.mem hib
  have hilt : i < buf.length := by
    have h2 : i < pt.length := List.mem_range.mp (hv.1.mem_iff.mp hienum)
    have h3 : pt.length = buf.length := by rw [hpt, hashPart, List.length_map]
    omega
  have hgd : pt.getD i 0 = H (buf.getD i []) % P := by
    rw [List.getD_eq_getElem _ _ (by simpa [hpt, hashPart] using hilt),
      List.getD_eq_getElem _ _ hilt]
    simp [hpt, hashPart]
  rw [hgd] at hmem
  omega

theorem c3_witness : hashSum [0, 1, 5] % 2 = 0 :=
  c3_repartitionByHash_hash_owner hashSum 2 [[0], [0]]
    ⟨[[[0, 1, 5]], [[0, 1, 2]]], false⟩ rfl (by decide) 0 (by decide)
    [0, 1, 5] (by decide)

/-- C4: `repartitionByHash` is idempotent — when the hash-partitioned flag
is already set the call returns immediately, so a second invocation (with
whatever enumeration its `std::sort` would produce) leaves the mesh state
unchanged. -/
theorem c4_repartitionByHash_idempotent (H : Splx → ℕ) (P : ℕ)
    (e1 e2 : List (List ℕ)) (st : PMesh) :
    repartitionByHash H P e2 (repartitionByHash H P e1 st)
      = repartitionByHash H P e1 st := by
  unfold repartitionByHash
  cases h : st.byHash <;> simp [h]

/-- C5: `repartition()` preserves the global multiset of elements paired
with their attached data rows: the union over ranks of the received element
buffers zipped with the received data buffers equals the union before the
call. The partition vector is the black-box partitioner's output, subject
only to its contract (one in-range target rank per local element). -/
theorem c5_repartition_preserves_pairs {β : Type _} (db : β) (P : ℕ)
    (st : PMesh) (dataAll : List (List β)) (partAll enumAll : List (List ℕ))
    (hP : 0 < P)
    (hdl : ∀ p, p < P → (dataAll.getD p []).length = (st.elems.getD p []).length)
    (hpl : ∀ p, p < P → (partAll.getD p []).length = (st.elems.getD p []).length)
    (hval : ∀ p, p < P → validEnum (partAll.getD p []) (enumAll.getD p []))
    (hpv : ∀ p, p < P → ∀ x ∈ partAll.getD p [], x < P) :
    msOf ((List.range P).map fun r =>
        ((repartition P partAll enumAll st).elems.getD r []).zip
          ((redistributedData db P dataAll partAll enumAll).getD r [])).flatten
      = msOf ((List.range P).map fun r =>
          (st.elems.getD r []).zip (dataAll.getD r [])).flatten := by
  have henumlt : ∀ p, p < P → ∀ i ∈ enumAll.getD p [],
      i < (st.elems.getD p []).length := by
    intro p hp i hi
    have h1 := (hval p hp).1.mem_iff.mp hi
    have h2 := List.mem_range.mp h1
    rw [hpl p hp] at h2
    exact h2
  have hzip : ∀ r ∈ List.range P,
      ((repartition P partAll enumAll st).elems.getD r []).zip
          ((redistributedData db P dataAll partAll enumAll).getD r [])
        = (doPartitionG ([], db) P
            ((List.range P).map fun p => (st.elems.getD p []).zip (dataAll.getD p []))
            partAll enumAll).getD r [] := by
    intro r hrm
    have hr := List.mem_range.mp hrm
    exact (doPartitionG_zip ([] : Splx) db P st.elems dataAll partAll enumAll
      hdl henumlt r hr).symm
  rw [List.map_congr_left hzip]
  have hglob := doPartitionG_global (([] : Splx), db) P
    ((List.range P).map fun p => (st.elems.getD p []).zip (dataAll.getD p []))
    partAll enumAll hP
    (fun p hp => by
      rw [getD_map_range _ _ hp, List.length_zip, hdl p hp, hpl p hp]
      omega)
    (fun p hp => (hval p hp).1)
    (fun p hp i hi => by
      have h1 := henumlt p hp i hi
      rw [← hpl p hp] at h1
      have h2 : (partAll.getD p []).getD i 0 ∈ partAll.getD p [] := by
        rw [List.getD_eq_getElem _ _ h1]
        exact List.getElem_mem h1
      exact hpv p hp _ h2)
  rw [hglob]
  apply congrArg
  apply congrArg
  apply List.map_congr_left
  intro p hp
  rw [getD_map_range _ _ (List.mem_range.mp hp)]

theorem c5_witness :
    msOf ((List.range 2).map fun r =>
        ((repartition 2 [[1], [0]] [[0], [0]] ⟨[[[0, 1, 2]], [[3, 4, 5]]], false⟩).elems.getD r []).zip
          ((redistributedData (0 : ℕ) 2 [[7], [9]] [[1], [0]] [[0], [0]]).getD r [])).flatten
      = msOf ((List.range 2).map fun r =>
          (([[[0, 1, 2]], [[3, 4, 5]]] : List (List Splx)).getD r []).zip
            (([[7], [9]] : List (List ℕ)).getD r [])).flatten :=
  c5_repartition_preserves_pairs (0 : ℕ) 2 ⟨[[[0, 1, 2]], [[3, 4, 5]]], false⟩
    [[7], [9]] [[1], [0]] [[0], [0]] (by decide) (by decide) (by decide)
    (by decide) (by decide)

/-- C6 as stated is false on the code: `doPartition` sorts the enumeration
with `std::sort`, whose contract guarantees only a permutation ordered by
the comparator, not stability. For the partition vector `[0, 0]` (two local
elements with the same target rank) the enumeration `[1, 0]` is a conforming
`std::sort` result, yet it places local index 1 before local index 0 in the
send buffer. -/
theorem c6_counterexample :
    validEnum [0, 0] [1, 0] ∧ ¬ stableOrder [0, 0] [1, 0] := by
  decide

/-- C6 amended: the enumeration is sorted by target rank ascending — any two
local indices with strictly increasing target ranks keep that order in the
send buffer (the send slot of index `i` is its position in the enumeration)
— but for equal target ranks `std::sort` guarantees no particular order. -/
theorem c6_sorted_by_target_rank (part enum : List ℕ) (h : validEnum part enum)
    (a : ℕ) (ha : a < part.length) (b : ℕ) (hb : b < part.length)
    (hab : part.getD a 0 < part.getD b 0) :
    enum.indexOf a < enum.indexOf b := by
  have hma : a ∈ enum := h.1.mem_iff.mpr (List.mem_range.mpr ha)
  have hmb : b ∈ enum := h.1.mem_iff.mpr (List.mem_range.mpr hb)
  have hia := List.indexOf_lt_length.mpr hma
  have hib := List.indexOf_lt_length.mpr hmb
  by_contra hc
  push_neg at hc
  have hga := List.indexOf_get (h := hia)
  have hgb := List.indexOf_get (h := hib)
  rcases Nat.lt_or_eq_of_le hc with hlt | heq
  · have hp := (List.pairwise_iff_getElem.mp h.2) (enum.indexOf b) (enum.indexOf a)
      (by simpa using hib) (by simpa using hia) hlt
    have hpb : (enum.map fun i => part.getD i 0).get
        ⟨enum.indexOf b, by simpa using hib⟩ = part.getD b 0 := by
      rw [List.get_eq_getElem, List.getElem_map]
      rw [List.get_eq_getElem] at hgb
      exact congrArg (fun x => part.getD x 0) hgb
    have hpa : (enum.map fun i => part.getD i 0).get
        ⟨enum.indexOf a, by simpa using hia⟩ = part.getD a 0 := by
      rw [List.get_eq_getElem, List.getElem_map]
      rw [List.get_eq_getElem] at hga
      exact congrArg (fun x => part.getD x 0) hga
    rw [List.get_eq_getElem] at hpb hpa
    rw [hpb, hpa] at hp
    omega
  · have hba : b = a := (List.indexOf_inj hmb hma).mp heq
    rw [hba] at hab
    omega

theorem c6_sorted_by_target_rank_witness :
    validEnum [1, 0] [1, 0] ∧ [1, 0].indexOf 1 < [1, 0].indexOf 0 :=
  ⟨by decide, c6_sorted_by_target_rank [1, 0] [1, 0] (by decide) 1 (by decide)
    0 (by decide) (by decide)⟩

/-! ## Ghost growth (`getGhostElements`, lines 208-287)

The ghost loop's collectives are modelled as pure functions of all ranks'
contributions.  The face hash only routes each face to one rendezvous rank;
because it is a total function, every copy of a face reaches the same
owner, so the owner-side multiplicity of a face equals its multiplicity
among everything sent, and the owner-side reply for a pair is a function of
all sent pairs with the same face.  The embedding therefore works with the
rank-major concatenation of the sent data directly (iteration order of the
owners' unordered containers is unspecified in the source; it is observable
only when several distinct candidates match, which the multiplicity-2
assertions rule out). -/

/-- State of the ghost loop: per-rank element lists, the
`hasDomainBoundaryFaces` flag, and the per-rank `domainBoundaryFaces` set
(the source initializes the flag to `false` and never assigns it). -/
structure GhostState where
  elems : List (List Splx)
  hasDBF : Bool
  dbf : List (List Splx)
  deriving DecidableEq

/-- The upward multimap of `getBoundaryFaces`: every `(D-1)`-face of every
element paired with the producing element's local index. -/
def upPairs (es : List Splx) : List (Splx × ℕ) :=
  ((List.range es.length).map fun i =>
    (downFaces (es.getD i [])).map fun f => (f, i)).flatten

/-- `getBoundaryFaces` (lines 289-331): build the upward multimap, abort if
any face has multiplicity above 2 (`assert(count <= 2)`), and erase all
internal faces (multiplicity ≥ 2), keeping the local-boundary faces, each
mapped to its single owning element index. -/
def getBoundaryFaces (es : List Splx) : Option (List (Splx × ℕ)) :=
  let up := upPairs es
  if up.any fun u => 2 < up.countP fun v => v.1 == u.1 then none
  else some (up.filter fun u => up.countP (fun v => v.1 == u.1) == 1)

/-- The faces all ranks send to the face hash owners in the count round
trip; the owner-side multiset count of a face equals its count here. -/
def allSentFaces (ups : List (List (Splx × ℕ))) : List Splx :=
  (ups.map fun up => up.map fun u => u.1).flatten

/-- `deleteDomainBoundaryFaces` (lines 333-382): round trip the boundary
faces to their hash owners, abort if an owner sees a face more than twice
(`assert(1 <= faceCount && faceCount <= 2)`), erase count-1 faces from each
upward map and return them as each rank's (replaced) `domainBoundaryFaces`
set. -/
def deleteDBF (P : ℕ) (ups : List (List (Splx × ℕ))) :
    Option (List (List (Splx × ℕ)) × List (List Splx)) :=
  let all := allSentFaces ups
  if ups.any fun up => up.any fun u => 2 < all.count u.1 then none
  else some
    ((List.range P).map fun r => (ups.getD r []).filter fun u => all.count u.1 != 1,
     (List.range P).map fun r =>
       ((ups.getD r []).filter fun u => all.count u.1 == 1).map fun u => u.1)

/-- The `hasDomainBoundaryFaces` branch of the ghost loop (lines 218-222):
erase the persistent set locally, without a round trip.  (Dead in the
source: the flag is never set.) -/
def filterDBF (P : ℕ) (ups : List (List (Splx × ℕ))) (dbf : List (List Splx)) :
    List (List (Splx × ℕ)) :=
  (List.range P).map fun r =>
    (ups.getD r []).filter fun u => !((dbf.getD r []).contains u.1)

/-- The (face, element) pairs a rank sends to the faces' hash owners
(lines 245-259). -/
def sentPairs (es : List Splx) (up : List (Splx × ℕ)) : List (Splx × Splx) :=
  up.map fun u => (u.1, es.getD u.2 [])

/-- All ranks' sent pairs, rank-major (the owners' receive buffers). -/
def sentPairsAll (P : ℕ) (elemsAll : List (List Splx))
    (ups : List (List (Splx × ℕ))) : List (List (Splx × Splx)) :=
  (List.range P).map fun r => sentPairs (elemsAll.getD r []) (ups.getD r [])

/-- The owner-side match (lines 267-275): among the entries received for
the face, skip those equal to the incoming element and reply the first
remaining one; `assert(range.first != range.second)` aborts when every
entry equals the incoming element. -/
def findOpposite (all : List (Splx × Splx)) (fe : Splx × Splx) : Option Splx :=
  ((all.filter fun v => v.1 == fe.1).find? fun v => !(v.2 == fe.2)).map fun v => v.2

def seqOpt {α : Type _} : List (Option α) → Option (List α)
  | [] => some []
  | none :: _ => none
  | some a :: t => (seqOpt t).map fun l => a :: l

/-- One iteration of the ghost-growth loop (lines 216-285): per-rank
boundary faces (abort on multiplicity > 2), then the domain-boundary filter
— through the collective round trip when `hasDBF` is false, locally
otherwise; the source initializes `hasDomainBoundaryFaces = false` and
never sets it, so the round-trip branch runs in every iteration — then the
neighbor exchange with the opposite-element match (abort when no remaining
entry differs), and finally each rank appends its sorted, deduplicated
batch of received elements. -/
def ghostStep (P : ℕ) (st : GhostState) : Option GhostState :=
  (seqOpt ((List.range P).map fun r => getBoundaryFaces (st.elems.getD r []))).bind
    fun ups =>
  (if st.hasDBF then some (filterDBF P ups st.dbf, st.dbf) else deleteDBF P ups).bind
    fun ud =>
  (seqOpt ((List.range P).map fun r =>
      seqOpt (((sentPairsAll P st.elems ud.1).getD r []).map fun fe =>
        findOpposite (sentPairsAll P st.elems ud.1).flatten fe))).map
    fun batches =>
  { elems := (List.range P).map fun r =>
      st.elems.getD r [] ++ sortUnique (batches.getD r []),
    hasDBF := st.hasDBF,
    dbf := ud.2 }

/-- The `for (unsigned ol = 1; ol <= overlap; ++ol)` loop. -/
def ghostLoop (P : ℕ) : ℕ → GhostState → Option GhostState
  | 0, st => some st
  | k + 1, st => (ghostStep P st).bind (ghostLoop P k)

def initGhost (elemsAll : List (List Splx)) : GhostState :=
  ⟨elemsAll, false, List.replicate elemsAll.length []⟩

/-- `getGhostElements`: iterate the layer growth `overlap` times starting
from the owned elements. -/
def getGhostElements (P : ℕ) (overlap : ℕ) (elemsAll : List (List Splx)) :
    Option (List (List Splx)) :=
  (ghostLoop P overlap (initGhost elemsAll)).map fun st => st.elems

/-- The element-GID part of `getAllLocalFaces` (lines 192-206): the
exclusive `MPI_Scan` offset over the owned element counts. -/
def elemGidOffset (elemsAll : List (List Splx)) (r : ℕ) : ℕ :=
  ((List.range r).map fun q => (elemsAll.getD q []).length).sum

/-- Element contiguous GIDs (lines 200-201): the vector is sized
`numElements()` — the owned count, not the extended list's length — and
filled by `std::iota` from the scan offset. -/
def elemCGIDs (elemsAll : List (List Splx)) (r : ℕ) : List ℕ :=
  (List.range (elemsAll.getD r []).length).map fun i => elemGidOffset elemsAll r + i

/-- A successful ghost iteration keeps the flag and only appends a batch to
each rank's element list. -/
theorem ghostStep_some_elim (P : ℕ) (st st2 : GhostState)
    (h : ghostStep P st = some st2) :
    st2.hasDBF = st.hasDBF ∧ ∃ batches : List (List Splx), st2.elems =
      (List.range P).map fun r => st.elems.getD r [] ++ sortUnique (batches.getD r []) := by
  unfold ghostStep at h
  rcases Option.bind_eq_some.mp h with ⟨ups, h1, h⟩
  rcases Option.bind_eq_some.mp h with ⟨ud, h2, h⟩
  rcases Option.map_eq_some'.mp h with ⟨batches, h3, rfl⟩
  exact ⟨rfl, batches, rfl⟩

theorem ghostLoop_flag (P k : ℕ) :
    ∀ st st2, ghostLoop P k st = some st2 → st2.hasDBF = st.hasDBF := by
  induction k with
  | zero =>
      intro st st2 h
      cases h
      rfl
  | succ n ih =>
      intro st st2 h
      rcases Option.bind_eq_some.mp h with ⟨mid, h1, h2⟩
      rw [ih mid st2 h2, (ghostStep_some_elim P st mid h1).1]

theorem ghostLoop_extend (P k : ℕ) :
    ∀ st st2, ghostLoop P k st = some st2 → ∀ r, r < P →
      ∃ t, st2.elems.getD r [] = st.elems.getD r [] ++ t := by
  induction k with
  | zero =>
      intro st st2 h r hr
      cases h
      exact ⟨[], (List.append_nil _).symm⟩
  | succ n ih =>
      intro st st2 h r hr
      rcases Option.bind_eq_some.mp h with ⟨mid, h1, h2⟩
      rcases (ghostStep_some_elim P st mid h1).2 with ⟨batches, hb⟩
      rcases ih mid st2 h2 r hr with ⟨t2, ht2⟩
      refine ⟨sortUnique (batches.getD r []) ++ t2, ?_⟩
      rw [ht2, hb, getD_map_range _ _ hr, List.append_assoc]

/-- Rank 0 owns triangle (0,1,2), rank 1 owns triangle (0,1,3); they share
the edge (0,1) (spec scenario: two triangles sharing an edge). -/
def exElems2 : List (List Splx) := [[[0, 1, 2]], [[0, 1, 3]]]

/-- C1 fails on the code (code bug): `hasDomainBoundaryFaces` is initialized
to `false` at line 213 and never assigned afterwards, so the ghost loop
takes the `else` branch — the collective `deleteDomainBoundaryFaces` round
trip — in every iteration, not only in the first: concretely, after the
first iteration on the two-triangle mesh the flag is still `false` (so
iteration 2 of an overlap ≥ 2 run evaluates the round-trip branch again),
and in general a successful `ghostStep` never changes the flag. -/
theorem c1_round_trip_not_only_first :
    ((ghostLoop 2 1 (initGhost exElems2)).map fun st => st.hasDBF) = some false
    ∧ ∀ st : GhostState, ((ghostStep 2 st).map fun s2 => s2.hasDBF)
        = (ghostStep 2 st).map fun _ => st.hasDBF := by
  constructor
  · decide
  · intro st
    cases h : ghostStep 2 st with
    | none => rfl
    | some st2 => simp [(ghostStep_some_elim 2 st st2 h).1]

/-- The input is manifold: every (D-1)-face has at most two witnessing
elements in the global element collection. -/
def manifoldInput (elemsAll : List (List Splx)) : Prop :=
  ∀ e ∈ elemsAll.flatten, ∀ f ∈ downFaces e,
    (elemsAll.flatten.countP fun e2 => (downFaces e2).contains f) ≤ 2

instance (elemsAll : List (List Splx)) : Decidable (manifoldInput elemsAll) := by
  unfold manifoldInput; infer_instance

/-- C9 fails on the code (code bug): the two-triangle mesh is manifold, yet
ghost growth with overlap 2 aborts.  After iteration 1 both ranks hold both
triangles; in iteration 2 every local-boundary face is sent by both ranks
with the *same* witnessing element, so the owner-side match
(`assert(range.first != range.second)`, line 273) finds no remaining entry
and the assertion fires — contradicting the claim that on manifold input no
assertion in ghost growth fires. -/
theorem c9_match_assert_fires_on_manifold :
    manifoldInput exElems2 ∧ getGhostElements 2 2 exElems2 = none := by
  decide

/-- C10: whatever the overlap, a successful `getGhostElements` run returns
each rank's owned elements as the first `numElements()` entries in their
original order (ghost batches are only appended), the iota GIDs of
`getAllLocalFaces` line up index by index with the owned prefix, and with
overlap 0 the returned lists are exactly the owned sequences. -/
theorem c10_owned_elements_are_prefix (P : ℕ) (elemsAll : List (List Splx))
    (k : ℕ) (res : List (List Splx))
    (h : getGhostElements P k elemsAll = some res) (r : ℕ) (hr : r < P) :
    (res.getD r []).take (elemsAll.getD r []).length = elemsAll.getD r []
    ∧ (elemCGIDs elemsAll r).length = (elemsAll.getD r []).length
    ∧ (∀ i, i < (elemsAll.getD r []).length →
        (elemCGIDs elemsAll r).getD i 0 = elemGidOffset elemsAll r + i)
    ∧ getGhostElements P 0 elemsAll = some elemsAll := by
  rcases Option.map_eq_some'.mp h with ⟨st2, hloop, rfl⟩
  rcases ghostLoop_extend P k (initGhost elemsAll) st2 hloop r hr with ⟨t, ht⟩
  refine ⟨?_, ?_, ?_, rfl⟩
  · rw [ht]
    exact List.take_left _ _
  · rw [elemCGIDs, List.length_map, List.length_range]
  · intro i hi
    rw [elemCGIDs, getD_map_range _ _ hi]

theorem c10_witness :
    ((([[[0, 1, 2], [0, 1, 3]], [[0, 1, 3], [0, 1, 2]]] :
        List (List Splx)).getD 0 []).take ((exElems2.getD 0 []).length)
        = exElems2.getD 0 []
      ∧ (elemCGIDs exElems2 0).length = (exElems2.getD 0 []).length
      ∧ (∀ i, i < (exElems2.getD 0 []).length →
          (elemCGIDs exElems2 0).getD i 0 = elemGidOffset exElems2 0 + i)
      ∧ getGhostElements 2 0 exElems2 = some exElems2) :=
  c10_owned_elements_are_prefix 2 exElems2 1
    [[[0, 1, 2], [0, 1, 3]], [[0, 1, 3], [0, 1, 2]]] (by decide) 0 (by decide)

/-- The pairing C2 asserts, weakened to its necessary condition: in the
dimension-D local view, a ghost element (index `j` at or beyond the owned
count) can only "appear together with a GID" if the GID vector reaches its
index.  (The full claim also fixes the GID's value; refuting the weaker
statement refutes the claim as stated.) -/
def claimC2Pairing (P k : ℕ) (elemsAll : List (List Splx)) : Prop :=
  ∀ res, getGhostElements P k elemsAll = some res →
    ∀ r, r < P → ∀ j, (elemsAll.getD r []).length ≤ j →
      j < (res.getD r []).length → j < (elemCGIDs elemsAll r).length

/-- C2 fails on the code: `getAllLocalFaces` sizes `cGIDs` by
`numElements()` — the owned count — and fills it by `std::iota`; the ghost
elements of the extended list have no GID entry at all, let alone the GID
assigned by their owning rank.  Concretely: with overlap 1 on the
two-triangle mesh, rank 0's local list has 2 elements but its GID vector
has 1 entry, so the ghost (0,1,3) at index 1 carries no GID. -/
theorem c2_counterexample : ¬ claimC2Pairing 2 1 exElems2 := by
  intro h
  have h2 := h [[[0, 1, 2], [0, 1, 3]], [[0, 1, 3], [0, 1, 2]]] (by decide)
    0 (by decide) 1 (by decide) (by decide)
  exact absurd h2 (by decide)

/-- C2 amended: owned elements receive GIDs `gidOffset + i` from the prefix
scan over the owned count `|E0|`; ghost elements do appear in the local
element list (appended after the owned prefix), but the GID vector has
exactly `|E0|` entries, so no ghost element carries any GID — in particular
not one computed by its owner. -/
theorem c2_ghosts_carry_no_gid (P : ℕ) (elemsAll : List (List Splx))
    (k : ℕ) (res : List (List Splx))
    (h : getGhostElements P k elemsAll = some res) (r : ℕ) (hr : r < P) :
    (res.getD r []).take (elemsAll.getD r []).length = elemsAll.getD r []
    ∧ (elemCGIDs elemsAll r).length = (elemsAll.getD r []).length
    ∧ (∀ i, i < (elemsAll.getD r []).length →
        (elemCGIDs elemsAll r).getD i 0 = elemGidOffset elemsAll r + i)
    ∧ ∀ j, (elemsAll.getD r []).length ≤ j →
        ¬ j < (elemCGIDs elemsAll r).length := by
  rcases Option.map_eq_some'.mp h with ⟨st2, hloop, rfl⟩
  rcases ghostLoop_extend P k (initGhost elemsAll) st2 hloop r hr with ⟨t, ht⟩
  refine ⟨?_, ?_, ?_, ?_⟩
  · rw [ht]
    exact List.take_left _ _
  · rw [elemCGIDs, List.length_map, List.length_range]
  · intro i hi
    rw [elemCGIDs, getD_map_range _ _ hi]
  · intro j hj
    rw [elemCGIDs, List.length_map, List.length_range]
    omega

/-! ## Local face extraction (`getFaces`, lines 406-470)

Per dimension `DD`, every rank enumerates the distinct `DD`-faces of its
(extended) element list into per-owner `std::set`s, ships each set to the
face's hash owner, and receives back a GID per face plus the list of ranks
sharing it.  The rendezvous owner of a face is an arbitrary function
`own` (in the source `SimplexHash<DD>() % procs` for `DD > 0`, the
`vtxdist` lookup for `DD = 0`). -/

/-- `std::set` of simplices: sorted distinct (`std::map` keys likewise). -/
def sortDedup (l : List Splx) : List Splx := sortLe lexLe l.dedup

theorem sortDedup_perm (l : List Splx) : List.Perm (sortDedup l) l.dedup :=
  sortLe_perm _ _

theorem mem_sortDedup {l : List Splx} {f : Splx} : f ∈ sortDedup l ↔ f ∈ l := by
  rw [(sortDedup_perm l).mem_iff, List.mem_dedup]

theorem sortDedup_nodup (l : List Splx) : (sortDedup l).Nodup :=
  (sortDedup_perm l).symm.nodup (List.nodup_dedup l)

/-- `downward<DD>` over a rank's element list: all `(DD+1)`-subsets of each
element's vertex tuple (lines 412-418 before the per-owner set insert). -/
def requiredFaces (dd : ℕ) (es : List Splx) : List Splx :=
  (es.map fun e => e.sublistsLen (dd + 1)).flatten

/-- The `std::set` of required faces a rank inserts for destination owner
`o` (`requiredFaces[plex2rank(s)].insert(s)`). -/
def reqBlock (own : Splx → ℕ) (dd : ℕ) (es : List Splx) (o : ℕ) : List Splx :=
  sortDedup ((requiredFaces dd es).filter fun f => own f == o)

/-- The face list a rank sends (and keeps as its local face list): the
per-owner sets concatenated in owner order (lines 427-431). -/
def sentFaces (P : ℕ) (own : Splx → ℕ) (dd : ℕ) (es : List Splx) : List Splx :=
  ((List.range P).map fun o => reqBlock own dd es o).flatten

theorem mem_reqBlock {own : Splx → ℕ} {dd : ℕ} {es : List Splx} {o : ℕ} {f : Splx} :
    f ∈ reqBlock own dd es o ↔ own f = o ∧ f ∈ requiredFaces dd es := by
  rw [reqBlock, mem_sortDedup, List.mem_filter]
  constructor
  · intro ⟨h1, h2⟩
    exact ⟨beq_iff_eq.mp h2, h1⟩
  · intro ⟨h1, h2⟩
    exact ⟨h2, beq_iff_eq.mpr h1⟩

theorem mem_sentFaces {P : ℕ} {own : Splx → ℕ} {dd : ℕ} {es : List Splx} {f : Splx}
    (hown : own f < P) :
    f ∈ sentFaces P own dd es ↔ f ∈ requiredFaces dd es := by
  rw [sentFaces]
  constructor
  · intro h
    rcases List.mem_flatten.mp h with ⟨l, hl, hf⟩
    rcases List.mem_map.mp hl with ⟨o, _, rfl⟩
    exact (mem_reqBlock.mp hf).2
  · intro h
    apply List.mem_flatten.mpr
    refine ⟨reqBlock own dd es (own f), ?_, mem_reqBlock.mpr ⟨rfl, h⟩⟩
    exact List.mem_map.mpr ⟨own f, List.mem_range.mpr hown, rfl⟩

/-- `getContiguousGIDs` for `DD > 0` (lines 481-503): the owner's
`std::map<Simplex, size_t>` keyed by every face it received — the sorted
distinct list of the requested faces it owns. -/
def ownedDistinct (P : ℕ) (own : Splx → ℕ) (dd : ℕ) (elemsAll : List (List Splx))
    (o : ℕ) : List Splx :=
  sortDedup (((List.range P).map fun p =>
    reqBlock own dd (elemsAll.getD p []) o).flatten)

/-- The exclusive `MPI_Scan` offset over the owned distinct counts
(lines 490-493). -/
def gidOffset (P : ℕ) (own : Splx → ℕ) (dd : ℕ) (elemsAll : List (List Splx))
    (o : ℕ) : ℕ :=
  ((List.range o).map fun q => (ownedDistinct P own dd elemsAll q).length).sum

/-- The contiguous GID the hash owner assigns to a face for `DD > 0`: the
scan offset plus the face's slot in the owner's sorted distinct list
(lines 495-498). -/
def faceGID (P : ℕ) (own : Splx → ℕ) (dd : ℕ) (elemsAll : List (List Splx))
    (f : Splx) : ℕ :=
  gidOffset P own dd elemsAll (own f)
    + (ownedDistinct P own dd elemsAll (own f)).indexOf f

/-- The GID vector a requester receives, parallel to its sent face list
(lines 500-506: the owner replies `ownedFacesToCGID[face]` per incoming
face, and the exchange returns the replies positionally). -/
def recvGIDs (P : ℕ) (own : Splx → ℕ) (dd : ℕ) (elemsAll : List (List Splx))
    (r : ℕ) : List ℕ :=
  (sentFaces P own dd (elemsAll.getD r [])).map fun f => faceGID P own dd elemsAll f

/-- `getContiguousGIDs` for `DD == 0` (lines 477-480): the reply for a
vertex face is simply the vertex id, `cGIDs.emplace_back(face[0])`; no scan
and no per-owner slot participate. -/
def vertexGIDs (faces : List Splx) : List ℕ := faces.map fun f => f.getD 0 0

theorem mem_ownedDistinct {P : ℕ} {own : Splx → ℕ} {dd : ℕ}
    {elemsAll : List (List Splx)} {o : ℕ} {f : Splx} :
    f ∈ ownedDistinct P own dd elemsAll o ↔
      ∃ p, p < P ∧ f ∈ reqBlock own dd (elemsAll.getD p []) o := by
  rw [ownedDistinct, mem_sortDedup]
  constructor
  · intro h
    rcases List.mem_flatten.mp h with ⟨l, hl, hf⟩
    rcases List.mem_map.mp hl with ⟨p, hp, rfl⟩
    exact ⟨p, List.mem_range.mp hp, hf⟩
  · intro ⟨p, hp, h⟩
    exact List.mem_flatten.mpr ⟨_,
      List.mem_map.mpr ⟨p, List.mem_range.mpr hp, rfl⟩, h⟩

theorem ownedDistinct_own {P : ℕ} {own : Splx → ℕ} {dd : ℕ}
    {elemsAll : List (List Splx)} {o : ℕ} {f : Splx}
    (h : f ∈ ownedDistinct P own dd elemsAll o) : own f = o := by
  rcases mem_ownedDistinct.mp h with ⟨p, _, hb⟩
  exact (mem_reqBlock.mp hb).1

theorem ownedDistinct_nodup (P : ℕ) (own : Splx → ℕ) (dd : ℕ)
    (elemsAll : List (List Splx)) (o : ℕ) :
    (ownedDistinct P own dd elemsAll o).Nodup := sortDedup_nodup _

theorem sent_mem_ownedDistinct {P : ℕ} {own : Splx → ℕ} {dd : ℕ}
    {elemsAll : List (List Splx)} {r : ℕ} {f : Splx} (hr : r < P)
    (hown : own f < P) (h : f ∈ sentFaces P own dd (elemsAll.getD r [])) :
    f ∈ ownedDistinct P own dd elemsAll (own f) := by
  rw [mem_sentFaces hown] at h
  exact mem_ownedDistinct.mpr ⟨r, hr, mem_reqBlock.mpr ⟨rfl, h⟩⟩

theorem gidOffset_step (P : ℕ) (own : Splx → ℕ) (dd : ℕ)
    (elemsAll : List (List Splx)) (o : ℕ) :
    gidOffset P own dd elemsAll (o + 1)
      = gidOffset P own dd elemsAll o + (ownedDistinct P own dd elemsAll o).length := by
  rw [gidOffset, gidOffset, List.range_succ, List.map_append, List.sum_append]
  simp

theorem gidOffset_mono (P : ℕ) (own : Splx → ℕ) (dd : ℕ)
    (elemsAll : List (List Splx)) {o1 o2 : ℕ} (h : o1 ≤ o2) :
    gidOffset P own dd elemsAll o1 ≤ gidOffset P own dd elemsAll o2 := by
  induction o2 with
  | zero => rw [Nat.le_zero.mp h]
  | succ n ih =>
      by_cases hc : o1 ≤ n
      · have := ih hc
        rw [gidOffset_step]
        omega
      · rw [show o1 = n + 1 by omega]

/-- The owner's reply vector over its sorted distinct list is exactly its
contiguous id range. -/
theorem map_faceGID_ownedDistinct (P : ℕ) (own : Splx → ℕ) (dd : ℕ)
    (elemsAll : List (List Splx)) (o : ℕ) :
    (ownedDistinct P own dd elemsAll o).map (fun f => faceGID P own dd elemsAll f)
      = (List.range (ownedDistinct P own dd elemsAll o).length).map
          fun i => gidOffset P own dd elemsAll o + i := by
  apply List.ext_getElem
  · simp
  · intro i h1 h2
    simp only [List.getElem_map, List.getElem_range]
    have hiL : i < (ownedDistinct P own dd elemsAll o).length := by
      simpa using h1
    have hownf : own (ownedDistinct P own dd elemsAll o)[i] = o :=
      ownedDistinct_own (List.getElem_mem hiL)
    rw [faceGID, hownf]
    congr 1
    exact List.indexOf_getElem (ownedDistinct_nodup P own dd elemsAll o) i hiL

theorem flatten_range_blocks (cnt off : ℕ → ℕ) (h0 : off 0 = 0)
    (hstep : ∀ o, off (o + 1) = off o + cnt o) (P : ℕ) :
    ((List.range P).map fun o => (List.range (cnt o)).map fun i => off o + i).flatten
      = List.range (off P) := by
  induction P with
  | zero => simp [h0]
  | succ n ih =>
      rw [List.range_succ, List.map_append, List.flatten_append, ih, hstep,
        List.range_add]
      simp

/-- C7 fails as stated at `d = 0`: `getContiguousGIDs` replies the raw
vertex id (`cGIDs.emplace_back(face[0])`, line 479) instead of a scan
offset plus per-owner slot.  Single rank, one triangle (5,6,7): the code's
dimension-0 GID vector is the vertex ids `[5, 6, 7]`, whereas the claimed
scan mechanism yields `[0, 1, 2]`. -/
theorem c7_counterexample :
    vertexGIDs (sentFaces 1 (fun f => hashSum f % 1) 0
        (([[[5, 6, 7]]] : List (List Splx)).getD 0 []))
      ≠ recvGIDs 1 (fun f => hashSum f % 1) 0 [[[5, 6, 7]]] 0 := by
  decide

/-- C7 amended: for `0 < d < D` the hash owner of each distinct requested
face assigns it the scan offset plus its slot in the owner's sorted
distinct list, making the GID globally unique over the union of local face
lists; the owners' id ranges tile `[0, total)` exactly, so distinct GIDs
and distinct faces are in bijection; at `d = 0` the reply is instead the
raw vertex id (still distinct for distinct vertex faces). -/
theorem c7_gids_unique_contiguous (P : ℕ) (own : Splx → ℕ) (dd : ℕ)
    (elemsAll : List (List Splx)) (hown : ∀ f, own f < P) :
    (∀ p, p < P → ∀ q, q < P →
      ∀ f ∈ sentFaces P own dd (elemsAll.getD p []),
      ∀ g ∈ sentFaces P own dd (elemsAll.getD q []),
        f ≠ g → faceGID P own dd elemsAll f ≠ faceGID P own dd elemsAll g)
    ∧ ((List.range P).map fun o => (ownedDistinct P own dd elemsAll o).map
        fun f => faceGID P own dd elemsAll f).flatten
        = List.range (gidOffset P own dd elemsAll P)
    ∧ (((List.range P).map fun o => ownedDistinct P own dd elemsAll o).flatten).Nodup
    ∧ (∀ r, r < P → ∀ f ∈ sentFaces P own dd (elemsAll.getD r []),
        f ∈ ((List.range P).map fun o => ownedDistinct P own dd elemsAll o).flatten)
    ∧ (∀ r, recvGIDs P own dd elemsAll r
        = (sentFaces P own dd (elemsAll.getD r [])).map
            fun f => faceGID P own dd elemsAll f) := by
  have key : ∀ f g : Splx, f ∈ ownedDistinct P own dd elemsAll (own f) →
      g ∈ ownedDistinct P own dd elemsAll (own g) → own f < own g →
      faceGID P own dd elemsAll f < faceGID P own dd elemsAll g := by
    intro f g hf hg hlt
    have h1 : (ownedDistinct P own dd elemsAll (own f)).indexOf f
        < (ownedDistinct P own dd elemsAll (own f)).length :=
      List.indexOf_lt_length.mpr hf
    have h2 := gidOffset_step P own dd elemsAll (own f)
    have h3 := gidOffset_mono P own dd elemsAll (show own f + 1 ≤ own g from hlt)
    rw [faceGID, faceGID]
    omega
  have hconj2 : ((List.range P).map fun o => (ownedDistinct P own dd elemsAll o).map
      fun f => faceGID P own dd elemsAll f).flatten
        = List.range (gidOffset P own dd elemsAll P) := by
    rw [List.map_congr_left (fun o _ => map_faceGID_ownedDistinct P own dd elemsAll o)]
    exact flatten_range_blocks
      (fun o => (ownedDistinct P own dd elemsAll o).length)
      (gidOffset P own dd elemsAll) rfl (gidOffset_step P own dd elemsAll) P
  refine ⟨?_, hconj2, ?_, ?_, fun r => rfl⟩
  · intro p hp q hq f hf g hg hne
    have hfo := sent_mem_ownedDistinct hp (hown f) hf
    have hgo := sent_mem_ownedDistinct hq (hown g) hg
    rcases Nat.lt_trichotomy (own f) (own g) with h | h | h
    · exact Nat.ne_of_lt (key f g hfo hgo h)
    · intro heq
      rw [faceGID, faceGID, h] at heq
      rw [h] at hfo
      have hidx : (ownedDistinct P own dd elemsAll (own g)).indexOf f
          = (ownedDistinct P own dd elemsAll (own g)).indexOf g := by omega
      exact hne ((List.indexOf_inj hfo hgo).mp hidx)
    · exact (Nat.ne_of_lt (key g f hgo hfo h)).symm
  · apply List.Nodup.of_map (fun f => faceGID P own dd elemsAll f)
    rw [List.map_flatten, List.map_map]
    have : (List.map ((List.map fun f => faceGID P own dd elemsAll f) ∘
        fun o => ownedDistinct P own dd elemsAll o) (List.range P))
          = (List.range P).map fun o => (ownedDistinct P own dd elemsAll o).map
              fun f => faceGID P own dd elemsAll f := rfl
    rw [this, hconj2]
    exact List.nodup_range _
  · intro r hr f hf
    apply List.mem_flatten.mpr
    refine ⟨ownedDistinct P own dd elemsAll (own f), ?_,
      sent_mem_ownedDistinct hr (hown f) hf⟩
    exact List.mem_map.mpr ⟨own f, List.mem_range.mpr (hown f), rfl⟩

theorem c7_witness :
    ((∀ p, p < 2 → ∀ q, q < 2 →
      ∀ f ∈ sentFaces 2 (fun f => hashSum f % 2) 1 (exElems2.getD p []),
      ∀ g ∈ sentFaces 2 (fun f => hashSum f % 2) 1 (exElems2.getD q []),
        f ≠ g → faceGID 2 (fun f => hashSum f % 2) 1 exElems2 f
          ≠ faceGID 2 (fun f => hashSum f % 2) 1 exElems2 g)
    ∧ ((List.range 2).map fun o =>
        (ownedDistinct 2 (fun f => hashSum f % 2) 1 exElems2 o).map
          fun f => faceGID 2 (fun f => hashSum f % 2) 1 exElems2 f).flatten
        = List.range (gidOffset 2 (fun f => hashSum f % 2) 1 exElems2 2)
    ∧ (((List.range 2).map fun o =>
        ownedDistinct 2 (fun f => hashSum f % 2) 1 exElems2 o).flatten).Nodup
    ∧ (∀ r, r < 2 → ∀ f ∈ sentFaces 2 (fun f => hashSum f % 2) 1 (exElems2.getD r []),
        f ∈ ((List.range 2).map fun o =>
          ownedDistinct 2 (fun f => hashSum f % 2) 1 exElems2 o).flatten)
    ∧ (∀ r, recvGIDs 2 (fun f => hashSum f % 2) 1 exElems2 r
        = (sentFaces 2 (fun f => hashSum f % 2) 1 (exElems2.getD r [])).map
            fun f => faceGID 2 (fun f => hashSum f % 2) 1 exElems2 f)) :=
  c7_gids_unique_contiguous 2 (fun f => hashSum f % 2) 1 exElems2
    (fun f => Nat.mod_lt _ (by omega))

/-- `getSharedRanks` (lines 509-550): the hash owner of a face records the
list of ranks that requested it (`sharedRanksInfo`, built from the sDispls
of the exchange) and replies that list to each requester, for each face of
the requester's local face list. -/
def sharesOf (P : ℕ) (own : Splx → ℕ) (dd : ℕ) (elemsAll : List (List Splx))
    (f : Splx) : List ℕ :=
  (List.range P).filter fun p => (sentFaces P own dd (elemsAll.getD p [])).contains f

/-- The shared-ranks table rank `q` holds after `getSharedRanks`: the
owner's requester list for each face of `q`'s local face list (faces not in
the list have no entry). -/
def sharedRanksOn (P : ℕ) (own : Splx → ℕ) (dd : ℕ) (elemsAll : List (List Splx))
    (q : ℕ) (f : Splx) : List ℕ :=
  if (sentFaces P own dd (elemsAll.getD q [])).contains f
  then sharesOf P own dd elemsAll f else []

/-- C8: the shared-ranks table is symmetric — rank `p` appears in
`sharedRanks(f)` on rank `q` iff rank `q` appears in `sharedRanks(f)` on
rank `p` — and self-inclusive: each requester's own rank is in the list it
receives for each of its requested faces. -/
theorem c8_shared_ranks_symmetric (P : ℕ) (own : Splx → ℕ) (dd : ℕ)
    (elemsAll : List (List Splx)) (p : ℕ) (hp : p < P) (q : ℕ) (hq : q < P)
    (f : Splx) :
    (p ∈ sharedRanksOn P own dd elemsAll q f
      ↔ q ∈ sharedRanksOn P own dd elemsAll p f)
    ∧ (f ∈ sentFaces P own dd (elemsAll.getD q [])
        → q ∈ sharedRanksOn P own dd elemsAll q f) := by
  have hmem : ∀ r s, r < P →
      (r ∈ sharedRanksOn P own dd elemsAll s f ↔
        (sentFaces P own dd (elemsAll.getD s [])).contains f = true ∧
          f ∈ sentFaces P own dd (elemsAll.getD r [])) := by
    intro r s hr
    rw [sharedRanksOn]
    by_cases hc : (sentFaces P own dd (elemsAll.getD s [])).contains f = true
    · rw [if_pos hc, sharesOf]
      constructor
      · intro h
        rcases List.mem_filter.mp h with ⟨_, h2⟩
        exact ⟨hc, List.elem_iff.mp h2⟩
      · intro ⟨_, h2⟩
        exact List.mem_filter.mpr ⟨List.mem_range.mpr hr, List.elem_iff.mpr h2⟩
    · rw [if_neg hc]
      simp only [List.not_mem_nil, false_iff]
      intro ⟨h1, _⟩
      exact hc h1
  constructor
  · rw [hmem p q hp, hmem q p hq]
    constructor
    · intro ⟨h1, h2⟩
      exact ⟨List.elem_iff.mpr h2, List.elem_iff.mp h1⟩
    · intro ⟨h1, h2⟩
      exact ⟨List.elem_iff.mpr h2, List.elem_iff.mp h1⟩
  · intro h
    exact (hmem q q hq).mpr ⟨List.elem_iff.mpr h, h⟩

theorem c8_witness :
    ((1 ∈ sharedRanksOn 2 (fun f => hashSum f % 2) 1 exElems2 0 [0, 1]
      ↔ 0 ∈ sharedRanksOn 2 (fun f => hashSum f % 2) 1 exElems2 1 [0, 1])
    ∧ ([0, 1] ∈ sentFaces 2 (fun f => hashSum f % 2) 1 (exElems2.getD 0 [])
        → 0 ∈ sharedRanksOn 2 (fun f => hashSum f % 2) 1 exElems2 0 [0, 1])) :=
  c8_shared_ranks_symmetric 2 (fun f => hashSum f % 2) 1 exElems2 1 (by decide)
    0 (by decide) [0, 1]

theorem c2_witness :
    ((([[[0, 1, 2], [0, 1, 3]], [[0, 1, 3], [0, 1, 2]]] :
        List (List Splx)).getD 1 []).take ((exElems2.getD 1 []).length)
        = exElems2.getD 1 []
      ∧ (elemCGIDs exElems2 1).length = (exElems2.getD 1 []).length
      ∧ (∀ i, i < (exElems2.getD 1 []).length →
          (elemCGIDs exElems2 1).getD i 0 = elemGidOffset exElems2 1 + i)
      ∧ ∀ j, (exElems2.getD 1 []).length ≤ j →
          ¬ j < (elemCGIDs exElems2 1).length) :=
  c2_ghosts_carry_no_gid 2 exElems2 1
    [[[0, 1, 2], [0, 1, 3]], [[0, 1, 3], [0, 1, 2]]] (by decide) 1 (by decide)

end Tndm
